import Mathlib

/-!
Verification of the dezero-rust reverse-mode automatic-differentiation engine
(`src/core.rs`, `src/function.rs`) via a shallow embedding.

The embedding models:
* `ndarray::ArrayD<A>` as `Arr` (a shape together with a flat list of values;
  the scalar type `A : Float` is modelled by `ℤ`, a commutative ring, since
  the claims only concern scalar-generic ring identities — squares, doubling,
  elementwise sums — of the elementwise arithmetic);
* `Rc<RefCell<VariableInternal>>` handles as indices (`Nat`) into a node store,
  and `Rc<Creator>` allocations as indices into an edge store, both held in a
  `GraphState`; a fresh `Rc::new` is a fresh index, so pointer equality
  (`Rc::ptr_eq`) is index equality;
* `Weak` references as plain indices plus a `dead` set: `upgrade()` fails
  exactly on the ids recorded in `GraphState.dead`;
* the `backward` worklist loop as a fuel-indexed recursion; the fuel
  `nodes.length + 1` is proved sufficient (claim C8), and a failed
  `upgrade().unwrap()` surfaces as `BackResult.panicked`.
-/

namespace Dezero

/-- Shallow embedding of `ndarray::ArrayD<A>`: a dynamic shape plus the flat
list of elements. -/
structure Arr where
  shape : List Nat
  vals : List ℤ
deriving DecidableEq

instance : Inhabited Arr := ⟨⟨[], []⟩⟩

/-- `ArrayD::mapv`: elementwise map, shape preserved. -/
def Arr.mapv (f : ℤ → ℤ) (a : Arr) : Arr := ⟨a.shape, a.vals.map f⟩

/-- Elementwise binary operation on two arrays of the same shape
(the `ndarray` arithmetic the engine consumes). -/
def Arr.zipWith (f : ℤ → ℤ → ℤ) (a b : Arr) : Arr :=
  ⟨a.shape, List.zipWith f a.vals b.vals⟩

/-- `&a + &b` elementwise. -/
def Arr.add (a b : Arr) : Arr := Arr.zipWith (fun x y => x + y) a b

/-- `&a * &b` elementwise. -/
def Arr.mul (a b : Arr) : Arr := Arr.zipWith (fun x y => x * y) a b

instance : Add Arr := ⟨Arr.add⟩
instance : Mul Arr := ⟨Arr.mul⟩

/-- `ArrayD::ones(a.dim())`: an all-ones array of the same shape as `a`
(one value per element of `a`). -/
def Arr.onesLike (a : Arr) : Arr := ⟨a.shape, a.vals.map fun _ => 1⟩

/-- The `Function` trait object: the `forward`/`backward` pair of a concrete
operation (`Rc<dyn Function<A>>`). -/
structure Op where
  forward : List Arr → List Arr
  backward : List Arr → List Arr → List Arr

instance : Inhabited Op := ⟨⟨fun _ => [], fun _ _ => []⟩⟩

/-- `struct Square` from `function.rs`: forward `x.powi(2)` (i.e. `x * x`),
backward `x.mapv(|x| x * two) * gy.mapv(|gy| gy)`. -/
def squareOp : Op where
  forward := fun xs => [(xs.getD 0 default).mapv fun x => x * x]
  backward := fun xs gys =>
    [Arr.mul ((xs.getD 0 default).mapv fun x => x * 2)
             ((gys.getD 0 default).mapv fun gy => gy)]

/-- `struct Add` from `core.rs`: forward `&x0 + &x1`, backward
`vec![gys[0].clone(), gys[0].clone()]`. (Named `addOp` because `Add` is the
Lean typeclass name.) -/
def addOp : Op where
  forward := fun xs => [Arr.add (xs.getD 0 default) (xs.getD 1 default)]
  backward := fun _ gys => [gys.getD 0 default, gys.getD 0 default]

/-- `struct Mul` from `core.rs`: forward `x0 * x1`, backward
`vec![gy * x1, gy * x0]`. -/
def mulOp : Op where
  forward := fun xs => [Arr.mul (xs.getD 0 default) (xs.getD 1 default)]
  backward := fun xs gys =>
    [Arr.mul (gys.getD 0 default) (xs.getD 1 default),
     Arr.mul (gys.getD 0 default) (xs.getD 0 default)]

/-- A minimal two-output implementation of the `Function` contract
(N = 1 input, M = 2 outputs; backward returns one gradient per input),
used to exercise the multi-output behavior of `Function::call`. -/
def dupOp : Op where
  forward := fun xs => [xs.getD 0 default, xs.getD 0 default]
  backward := fun _ gys => [Arr.add (gys.getD 0 default) (gys.getD 1 default)]

/-- `struct VariableInternal<A>`: data, optional gradient, generation counter,
optional creator edge (`Option<Rc<Creator>>`, modelled as an edge id). -/
structure VariableInternal where
  data : Arr
  grad : Option Arr
  generation : Nat
  creator : Option Nat
deriving DecidableEq

instance : Inhabited VariableInternal := ⟨⟨default, none, 0, none⟩⟩

/-- `struct Creator<A>`: strong references to the input nodes, weak
(non-owning) references to the output nodes, the recorded generation,
and the shared operation handle. -/
structure Creator where
  inputs : List Nat
  outputs : List Nat
  generation : Nat
  function : Op

instance : Inhabited Creator := ⟨⟨[], [], 0, default⟩⟩

/-- The whole heap of the program: every `Rc<RefCell<VariableInternal>>`
allocation (`nodes`), every `Rc<Creator>` allocation (`edges`), and the set of
node ids whose strong count has dropped to zero (`dead`) so that `Weak.upgrade`
on them fails. -/
structure GraphState where
  nodes : List VariableInternal
  edges : List Creator
  dead : List Nat

/-- Dereference a node handle. -/
def nodeAt (st : GraphState) (i : Nat) : VariableInternal :=
  st.nodes.getD i default

/-- The generation recorded in an edge. -/
def genOf (st : GraphState) (e : Nat) : Nat :=
  (st.edges.getD e default).generation

/-- The creator fields present among the nodes of a state. -/
def creatorsList (st : GraphState) : List Nat :=
  st.nodes.filterMap (fun n => n.creator)

/-- `VariableInternal::new(data)`: no gradient, generation 0, no creator. -/
def VariableInternal.new (d : Arr) : VariableInternal :=
  ⟨d, none, 0, none⟩

/-- `Variable::cleargrad`: reset `grad` to absent. -/
def Variable.cleargrad (st : GraphState) (x : Nat) : GraphState :=
  { st with nodes := st.nodes.set x { nodeAt st x with grad := none } }

/-- `cleargrad` called on every node of the graph. -/
def cleargradAll (st : GraphState) : GraphState :=
  (List.range st.nodes.length).foldl Variable.cleargrad st

/-- `Function::call` (the default method of the `Function` trait in
`core.rs`): reads the input data, takes the max input generation
(`max().unwrap()`; the source panics on an empty input list, which no caller
produces, so the empty case is given the irrelevant default 0 here), runs
`forward`, allocates one fresh output node per result, and then — inside the
`for_each` over outputs — allocates one fresh `Rc<Creator>` *per output* and
stores it via `set_creator`, which also sets the output's generation to
`creator.generation + 1`. Returns the new state and the output node ids. -/
def Function.call (st : GraphState) (f : Op) (inputs : List Nat) :
    GraphState × List Nat :=
  let xs := inputs.map fun i => (nodeAt st i).data
  let generation := (inputs.map fun i => (nodeAt st i).generation).foldl max 0
  let ys := f.forward xs
  let baseN := st.nodes.length
  let baseE := st.edges.length
  let outIds := (List.range ys.length).map fun j => baseN + j
  let newNodes := (List.range ys.length).map fun j =>
    VariableInternal.mk (ys.getD j default) none (generation + 1) (some (baseE + j))
  let newEdges := (List.range ys.length).map fun _ =>
    Creator.mk inputs outIds generation f
  ({ st with nodes := st.nodes ++ newNodes, edges := st.edges ++ newEdges },
   outIds)

/-- `fn square` from `function.rs`: `Square.call(&[input])[0]`. -/
def square (st : GraphState) (x : Nat) : GraphState × Nat :=
  let r := Function.call st squareOp [x]
  (r.1, r.2.getD 0 0)

/-- `fn add` from `core.rs`: `Add.call(&[x0, x1])[0]`. -/
def add (st : GraphState) (x0 x1 : Nat) : GraphState × Nat :=
  let r := Function.call st addOp [x0, x1]
  (r.1, r.2.getD 0 0)

/-- The gradient write of the backward loop (`core.rs` lines 52–55):
add onto an existing gradient, else set it. -/
def accumulate (old : Option Arr) (gx : Arr) : Option Arr :=
  match old with
  | some g => some (g + gx)
  | none => some gx

/-- Sorted-insert used to realize `creators.sort_by(|a, b|
a.generation.cmp(&b.generation))`: ascending by edge generation. -/
def insertByGen (st : GraphState) (e : Nat) : List Nat → List Nat
  | [] => [e]
  | x :: xs =>
    if genOf st e ≤ genOf st x then e :: x :: xs else x :: insertByGen st e xs

/-- The worklist sort: ascending by edge generation (so that `Vec::pop`
removes a maximal-generation edge). -/
def sortByGen (st : GraphState) (l : List Nat) : List Nat :=
  l.foldr (insertByGen st) []

/-- One step of the `for_each` over `c.inputs.iter().zip(gxs)`
(`core.rs` lines 50–63): accumulate the gradient into the input node, then, if
the input has a creator not yet in the seen set, push it onto the worklist and
the seen set and re-sort the worklist by generation. -/
def propagateStep (acc : GraphState × List Nat × List Nat) (p : Nat × Arr) :
    GraphState × List Nat × List Nat :=
  let st := acc.1
  let wl := acc.2.1
  let seen := acc.2.2
  let n := nodeAt st p.1
  let n2 := { n with grad := accumulate n.grad p.2 }
  let st2 := { st with nodes := st.nodes.set p.1 n2 }
  match n2.creator with
  | some ic =>
    if seen.contains ic then (st2, wl, seen)
    else (st2, sortByGen st2 (wl ++ [ic]), seen ++ [ic])
  | none => (st2, wl, seen)

/-- Collect the upstream gradients of an edge's outputs (`core.rs` lines
33–40): for each output, upgrade the weak reference — `none` here models the
`unwrap` panic on an already-destroyed output — and use its gradient,
substituting an all-ones array shaped like its data when absent. -/
def gysOf (st : GraphState) : List Nat → Option (List Arr)
  | [] => some []
  | o :: os =>
    if st.dead.contains o then none
    else
      match gysOf st os with
      | none => none
      | some gs =>
        some ((match (nodeAt st o).grad with
               | some g => g
               | none => Arr.onesLike (nodeAt st o).data) :: gs)

/-- Process one popped edge (`core.rs` lines 32–63): collect output
gradients, run the operation's `backward`, and propagate over the inputs.
`none` models the panic on a dead output. -/
def processEdge (st : GraphState) (c : Creator) (wl seen : List Nat) :
    Option (GraphState × List Nat × List Nat) :=
  match gysOf st c.outputs with
  | none => none
  | some gys =>
    let xs := c.inputs.map fun i => (nodeAt st i).data
    let gxs := c.function.backward xs gys
    some ((c.inputs.zip gxs).foldl propagateStep (st, wl, seen))

/-- `Vec::pop` on a nonempty vector: the last element and the rest. -/
def popLast (w : Nat) (ws : List Nat) : Nat × List Nat :=
  match ws with
  | [] => (w, [])
  | x :: xs =>
    let r := popLast x xs
    (r.1, w :: r.2)

/-- Result of a backward traversal: normal completion, a panic (the
`upgrade().unwrap()` on a destroyed output), or fuel exhaustion of the
embedding (proved unreachable in claim C8). -/
inductive BackResult where
  | ok (st : GraphState)
  | panicked
  | fuelOut

/-- The worklist loop of `VariableInternal::backward` (`core.rs` lines
28–65), instrumented with the list of popped edge ids. -/
def backwardLoop : Nat → GraphState → List Nat → List Nat →
    BackResult × List Nat
  | _, st, [], _ => (.ok st, [])
  | 0, _, _ :: _, _ => (.fuelOut, [])
  | fuel + 1, st, w :: ws, seen =>
    let pr := popLast w ws
    match processEdge st (st.edges.getD pr.1 default) pr.2 seen with
    | none => (.panicked, [pr.1])
    | some r =>
      let rest := backwardLoop fuel r.1 r.2.1 r.2.2
      (rest.1, pr.1 :: rest.2)

/-- `VariableInternal::backward` (`core.rs` lines 24–67) together with the
trace of popped edges: if the node has no creator the whole body is skipped;
otherwise the worklist and seen set start as the singleton creator. -/
def VariableInternal.backwardRun (st : GraphState) (x : Nat) :
    BackResult × List Nat :=
  match (nodeAt st x).creator with
  | none => (.ok st, [])
  | some c => backwardLoop (st.nodes.length + 1) st [c] [c]

/-- `VariableInternal::backward`: the resulting state. -/
def VariableInternal.backward (st : GraphState) (x : Nat) : BackResult :=
  (VariableInternal.backwardRun st x).1

/-- The edges processed by a backward traversal, in processing order. -/
def backwardTrace (st : GraphState) (x : Nat) : List Nat :=
  (VariableInternal.backwardRun st x).2

/-- The state a successful backward traversal ends in (the traversal's start
state if it did not succeed); used to state concrete-run facts. -/
def okStateD (st : GraphState) (x : Nat) : GraphState :=
  match VariableInternal.backward st x with
  | .ok s => s
  | _ => st

/-- Erase the gradient of one node, keeping everything else. -/
def stripNode (n : VariableInternal) : VariableInternal :=
  { n with grad := none }

/-- Erase every gradient of a state, keeping everything else; two states with
equal `stripGrads` differ at most in their gradients. -/
def stripGrads (st : GraphState) : GraphState :=
  { st with nodes := st.nodes.map stripNode }

/-- Decidable well-formedness of a state, as established by graph
construction: every node's creator is a valid edge id and the node's
generation is that edge's generation plus one; every edge's inputs are valid
node ids whose generation is at most the edge's generation. -/
def wfb (st : GraphState) : Bool :=
  (st.nodes.all fun n =>
    match n.creator with
    | none => true
    | some e =>
      decide (e < st.edges.length) &&
      ((st.edges.getD e default).generation + 1 == n.generation)) &&
  (st.edges.all fun c => c.inputs.all fun i =>
    decide (i < st.nodes.length) &&
    decide ((st.nodes.getD i default).generation ≤ c.generation))

/-! ### Basic helper lemmas -/

theorem stripNode_creator (n : VariableInternal) : (stripNode n).creator = n.creator := rfl

theorem stripNode_generation (n : VariableInternal) :
    (stripNode n).generation = n.generation := rfl

theorem stripNode_data (n : VariableInternal) : (stripNode n).data = n.data := rfl

theorem stripNode_default : stripNode default = default := rfl

theorem stripNode_idem (n : VariableInternal) : stripNode (stripNode n) = stripNode n := rfl

theorem getD_map {α β : Type} (f : α → β) (l : List α) (d : α) (i : Nat) :
    (l.map f).getD i (f d) = f (l.getD i d) := by
  simp [List.getD_eq_getElem?_getD, List.getElem?_map]

theorem stripGrads_edges (st : GraphState) : (stripGrads st).edges = st.edges := rfl

theorem stripGrads_dead (st : GraphState) : (stripGrads st).dead = st.dead := rfl

theorem stripGrads_nodes_length (st : GraphState) :
    (stripGrads st).nodes.length = st.nodes.length := by
  simp [stripGrads]

theorem nodeAt_stripGrads (st : GraphState) (i : Nat) :
    nodeAt (stripGrads st) i = stripNode (nodeAt st i) := by
  simp only [nodeAt, stripGrads]
  rw [show (default : VariableInternal) = stripNode default from rfl]
  exact getD_map stripNode st.nodes default i

/-- Facts extracted from an equality of stripped states. -/
theorem strip_eq_facts {st₁ st₂ : GraphState} (h : stripGrads st₁ = stripGrads st₂) :
    st₁.edges = st₂.edges ∧ st₁.dead = st₂.dead ∧
    st₁.nodes.length = st₂.nodes.length ∧
    ∀ i, (nodeAt st₁ i).creator = (nodeAt st₂ i).creator ∧
      (nodeAt st₁ i).generation = (nodeAt st₂ i).generation ∧
      (nodeAt st₁ i).data = (nodeAt st₂ i).data := by
  have hed := congrArg GraphState.edges h
  have hdd := congrArg GraphState.dead h
  refine ⟨hed, hdd, ?_, ?_⟩
  · have := congrArg (fun s => s.nodes.length) h
    simpa [stripGrads_nodes_length] using this
  · intro i
    have hn : stripNode (nodeAt st₁ i) = stripNode (nodeAt st₂ i) := by
      rw [← nodeAt_stripGrads, ← nodeAt_stripGrads, h]
    have hc := congrArg VariableInternal.creator hn
    have hg := congrArg VariableInternal.generation hn
    have hd := congrArg VariableInternal.data hn
    exact ⟨hc, hg, hd⟩

theorem genOf_strip_eq {st₁ st₂ : GraphState} (h : stripGrads st₁ = stripGrads st₂) :
    genOf st₁ = genOf st₂ := by
  funext e
  simp [genOf, (strip_eq_facts h).1]

theorem creatorsList_strip_eq {st₁ st₂ : GraphState}
    (h : stripGrads st₁ = stripGrads st₂) : creatorsList st₁ = creatorsList st₂ := by
  have hm : st₁.nodes.map stripNode = st₂.nodes.map stripNode :=
    congrArg GraphState.nodes h
  have h1 : creatorsList st₁ = (st₁.nodes.map stripNode).filterMap fun n => n.creator := by
    simp [creatorsList, List.filterMap_map]
    rfl
  have h2 : creatorsList st₂ = (st₂.nodes.map stripNode).filterMap fun n => n.creator := by
    simp [creatorsList, List.filterMap_map]
    rfl
  rw [h1, h2, hm]

/-- The Prop-level reading of `wfb`. -/
def WFP (st : GraphState) : Prop :=
  (∀ i, i < st.nodes.length → ∀ e, (nodeAt st i).creator = some e →
    e < st.edges.length ∧ genOf st e + 1 = (nodeAt st i).generation) ∧
  (∀ e, e < st.edges.length → ∀ i ∈ (st.edges.getD e default).inputs,
    i < st.nodes.length ∧ (nodeAt st i).generation ≤ genOf st e)

theorem nodeAt_eq_getElem (st : GraphState) (i : Nat) (h : i < st.nodes.length) :
    nodeAt st i = st.nodes[i] := by
  simp [nodeAt, List.getD_eq_getElem?_getD, List.getElem?_eq_getElem h]

theorem wfb_iff (st : GraphState) : wfb st = true ↔ WFP st := by
  simp only [wfb, Bool.and_eq_true, List.all_eq_true, WFP]
  constructor
  · rintro ⟨h1, h2⟩
    constructor
    · intro i hi e hce
      have := h1 st.nodes[i] (List.getElem_mem hi)
      rw [← nodeAt_eq_getElem st i hi] at this
      rw [hce] at this
      simp only [Bool.and_eq_true, decide_eq_true_eq, beq_iff_eq] at this
      exact ⟨this.1, this.2⟩
    · intro e he i hi
      have := h2 st.edges[e] (List.getElem_mem he)
      have hge : st.edges.getD e default = st.edges[e] := by
        simp [List.getD_eq_getElem?_getD, List.getElem?_eq_getElem he]
      rw [← hge] at this
      have := this i hi
      simp only [Bool.and_eq_true, decide_eq_true_eq] at this
      exact ⟨this.1, by simpa [nodeAt, genOf] using this.2⟩
  · rintro ⟨h1, h2⟩
    constructor
    · intro n hn
      obtain ⟨i, hi, rfl⟩ := List.getElem_of_mem hn
      rw [← nodeAt_eq_getElem st i hi]
      cases hce : (nodeAt st i).creator with
      | none => rfl
      | some e =>
        have := h1 i hi e hce
        simp only [Bool.and_eq_true, decide_eq_true_eq, beq_iff_eq]
        exact ⟨this.1, this.2⟩
    · intro c hc i hi
      obtain ⟨e, he, rfl⟩ := List.getElem_of_mem hc
      have hge : st.edges.getD e default = st.edges[e] := by
        simp [List.getD_eq_getElem?_getD, List.getElem?_eq_getElem he]
      rw [← hge] at hi ⊢
      have := h2 e he i hi
      simp only [Bool.and_eq_true, decide_eq_true_eq]
      exact ⟨this.1, by simpa [nodeAt, genOf] using this.2⟩

theorem wfb_strip_eq {st₁ st₂ : GraphState} (h : stripGrads st₁ = stripGrads st₂) :
    wfb st₁ = wfb st₂ := by
  obtain ⟨he, -, hlen, hfields⟩ := strip_eq_facts h
  have hgen : genOf st₁ = genOf st₂ := genOf_strip_eq h
  have : WFP st₁ ↔ WFP st₂ := by
    unfold WFP
    rw [he, hlen, hgen]
    constructor
    · rintro ⟨h1, h2⟩
      refine ⟨fun i hi e hce => ?_, fun e he1 i hi => ?_⟩
      · have := h1 i hi e (by rw [(hfields i).1]; exact hce)
        rwa [(hfields i).2.1] at this
      · have := h2 e he1 i hi
        rwa [(hfields i).2.1] at this
    · rintro ⟨h1, h2⟩
      refine ⟨fun i hi e hce => ?_, fun e he1 i hi => ?_⟩
      · have := h1 i hi e (by rw [← (hfields i).1]; exact hce)
        rwa [← (hfields i).2.1] at this
      · have := h2 e he1 i hi
        rwa [← (hfields i).2.1] at this
  rcases hb : wfb st₂ with _ | _
  · rcases hb1 : wfb st₁ with _ | _
    · rfl
    · exact absurd (hb ▸ ((wfb_iff st₂).2 (this.1 ((wfb_iff st₁).1 hb1)))) (by simp)
  · exact (wfb_iff st₁).2 (this.2 ((wfb_iff st₂).1 hb))

/-! ### Worklist sorting lemmas -/

/-- The worklist invariant: ascending edge generations. -/
def SortedGen (st : GraphState) (l : List Nat) : Prop :=
  List.Pairwise (fun a b => genOf st a ≤ genOf st b) l

theorem insertByGen_perm (st : GraphState) (e : Nat) (l : List Nat) :
    (insertByGen st e l).Perm (e :: l) := by
  induction l with
  | nil => simp [insertByGen]
  | cons x xs ih =>
    simp only [insertByGen]
    by_cases h : genOf st e ≤ genOf st x
    · simp [h]
    · simp only [h, if_false]
      exact (ih.cons x).trans (List.Perm.swap e x xs)

theorem sortByGen_perm (st : GraphState) (l : List Nat) :
    (sortByGen st l).Perm l := by
  induction l with
  | nil => simp [sortByGen]
  | cons x xs ih =>
    have : sortByGen st (x :: xs) = insertByGen st x (sortByGen st xs) := rfl
    rw [this]
    exact (insertByGen_perm st x (sortByGen st xs)).trans (ih.cons x)

theorem sortByGen_length (st : GraphState) (l : List Nat) :
    (sortByGen st l).length = l.length :=
  (sortByGen_perm st l).length_eq

theorem sortByGen_mem (st : GraphState) (l : List Nat) (a : Nat) :
    a ∈ sortByGen st l ↔ a ∈ l :=
  (sortByGen_perm st l).mem_iff

theorem sortByGen_nodup (st : GraphState) (l : List Nat) :
    l.Nodup → (sortByGen st l).Nodup :=
  fun h => (sortByGen_perm st l).nodup_iff.2 h

theorem insertByGen_sorted (st : GraphState) (e : Nat) {l : List Nat}
    (hs : SortedGen st l) : SortedGen st (insertByGen st e l) := by
  unfold SortedGen at hs ⊢
  induction l with
  | nil => simp [insertByGen]
  | cons x xs ih =>
    simp only [insertByGen]
    by_cases h : genOf st e ≤ genOf st x
    · simp only [h, if_true]
      refine List.Pairwise.cons ?_ hs
      intro b hb
      rcases List.mem_cons.1 hb with hb | hb
      · exact hb ▸ h
      · exact le_trans h (List.rel_of_pairwise_cons hs hb)
    · have hx : genOf st x ≤ genOf st e := le_of_not_le h
      simp only [h, if_false]
      refine List.Pairwise.cons ?_ (ih hs.of_cons)
      intro b hb
      rcases List.mem_cons.1 ((insertByGen_perm st e xs).mem_iff.1 hb) with hb | hb
      · exact hb ▸ hx
      · exact List.rel_of_pairwise_cons hs hb

theorem sortByGen_sorted (st : GraphState) (l : List Nat) :
    SortedGen st (sortByGen st l) := by
  induction l with
  | nil => simp [sortByGen, SortedGen]
  | cons x xs ih => exact insertByGen_sorted st x ih

theorem SortedGen_strip_eq {st₁ st₂ : GraphState}
    (h : stripGrads st₁ = stripGrads st₂) (l : List Nat) :
    SortedGen st₁ l ↔ SortedGen st₂ l := by
  unfold SortedGen
  rw [genOf_strip_eq h]

theorem sortByGen_strip_eq {st₁ st₂ : GraphState}
    (h : stripGrads st₁ = stripGrads st₂) (l : List Nat) :
    sortByGen st₁ l = sortByGen st₂ l := by
  have hg : genOf st₁ = genOf st₂ := genOf_strip_eq h
  have hi : ∀ e m, insertByGen st₁ e m = insertByGen st₂ e m := by
    intro e m
    induction m with
    | nil => rfl
    | cons x xs ih => simp only [insertByGen, hg, ih]
  induction l with
  | nil => rfl
  | cons x xs ih =>
    show insertByGen st₁ x (sortByGen st₁ xs) = insertByGen st₂ x (sortByGen st₂ xs)
    rw [ih, hi]

theorem popLast_spec (w : Nat) (ws : List Nat) :
    popLast w ws = ((w :: ws).getLast (by simp), (w :: ws).dropLast) := by
  induction ws generalizing w with
  | nil => rfl
  | cons x xs ih =>
    simp only [popLast, ih x]
    refine Prod.ext ?_ ?_
    · simp [List.getLast_cons]
    · simp

theorem sorted_getLast_max (st : GraphState) {l : List Nat} (hs : SortedGen st l)
    (h : l ≠ []) : ∀ x ∈ l, genOf st x ≤ genOf st (l.getLast h) := by
  intro x hx
  have hdec := List.dropLast_append_getLast h
  have hs2 : List.Pairwise (fun a b => genOf st a ≤ genOf st b)
      (l.dropLast ++ [l.getLast h]) := by
    rw [hdec]
    exact hs
  rw [List.pairwise_append] at hs2
  have hx2 : x ∈ l.dropLast ++ [l.getLast h] := by
    rw [hdec]
    exact hx
  rcases List.mem_append.1 hx2 with hx3 | hx3
  · exact hs2.2.2 x hx3 _ (by simp)
  · simp only [List.mem_singleton] at hx3
    exact hx3 ▸ le_refl _

/-! ### Max-fold lemmas (for the generation computation of `call`) -/

theorem foldl_max_init_le (l : List Nat) (a : Nat) : a ≤ l.foldl max a := by
  induction l generalizing a with
  | nil => simp
  | cons x xs ih => exact le_trans (le_max_left a x) (ih (max a x))

theorem le_foldl_max (l : List Nat) (a : Nat) : ∀ x ∈ l, x ≤ l.foldl max a := by
  induction l generalizing a with
  | nil => simp
  | cons y ys ih =>
    intro x hx
    rcases List.mem_cons.1 hx with hx | hx
    · subst hx
      exact le_trans (le_max_right a x) (foldl_max_init_le ys (max a x))
    · exact ih (max a y) x hx

theorem foldl_max_mem (l : List Nat) (a : Nat) :
    l.foldl max a = a ∨ l.foldl max a ∈ l := by
  induction l generalizing a with
  | nil => simp
  | cons x xs ih =>
    rcases ih (max a x) with h | h
    · rcases max_choice a x with hm | hm
      · left
        simpa [hm] using h
      · right
        rw [List.foldl_cons, h, hm]
        exact List.mem_cons_self x xs
    · right
      exact List.mem_cons_of_mem x h

/-! ### Single-step lemmas for `propagateStep` -/

theorem grad_update_creator (n : VariableInternal) (g : Option Arr) :
    ({ n with grad := g }).creator = n.creator := rfl

/-- The state component produced by one `propagateStep`. -/
def stepState (st : GraphState) (p : Nat × Arr) : GraphState :=
  { st with nodes := st.nodes.set p.1 ({ nodeAt st p.1 with
      grad := accumulate (nodeAt st p.1).grad p.2 }) }

theorem propagateStep_none {st : GraphState} {wl seen : List Nat} {p : Nat × Arr}
    (hc : (nodeAt st p.1).creator = none) :
    propagateStep (st, wl, seen) p = (stepState st p, wl, seen) := by
  simp only [propagateStep, grad_update_creator, hc, stepState]

theorem propagateStep_seen {st : GraphState} {wl seen : List Nat} {p : Nat × Arr}
    {ic : Nat} (hc : (nodeAt st p.1).creator = some ic)
    (hs : seen.contains ic = true) :
    propagateStep (st, wl, seen) p = (stepState st p, wl, seen) := by
  simp only [propagateStep, grad_update_creator, hc, hs, if_true, stepState]

theorem propagateStep_push {st : GraphState} {wl seen : List Nat} {p : Nat × Arr}
    {ic : Nat} (hc : (nodeAt st p.1).creator = some ic)
    (hs : seen.contains ic = false) :
    propagateStep (st, wl, seen) p =
      (stepState st p, sortByGen (stepState st p) (wl ++ [ic]), seen ++ [ic]) := by
  simp only [propagateStep, grad_update_creator, hc, hs, Bool.false_eq_true,
    if_false, stepState]

theorem map_stripNode_set (l : List VariableInternal) (i : Nat)
    (a : VariableInternal) (h : stripNode a = stripNode (l.getD i default)) :
    (l.set i a).map stripNode = l.map stripNode := by
  apply List.ext_getElem?
  intro j
  rw [List.getElem?_map, List.getElem?_map, List.getElem?_set]
  by_cases hij : i = j
  · subst hij
    by_cases hlt : i < l.length
    · rw [if_pos rfl, if_pos hlt, List.getElem?_eq_getElem hlt]
      have hd : l.getD i default = l[i] := by
        simp [List.getD_eq_getElem?_getD, List.getElem?_eq_getElem hlt]
      simp only [Option.map_some']
      rw [h, hd]
    · rw [if_pos rfl, if_neg hlt, List.getElem?_eq_none (le_of_not_lt hlt)]
  · rw [if_neg hij]

theorem stripGrads_stepState (st : GraphState) (p : Nat × Arr) :
    stripGrads (stepState st p) = stripGrads st := by
  unfold stripGrads stepState
  have := map_stripNode_set st.nodes p.1
    { nodeAt st p.1 with grad := accumulate (nodeAt st p.1).grad p.2 } rfl
  simp only at this ⊢
  rw [this]

theorem creator_some_lt {st : GraphState} {i e : Nat}
    (h : (nodeAt st i).creator = some e) : i < st.nodes.length := by
  by_contra hge
  rw [nodeAt, List.getD_eq_default st.nodes default (le_of_not_lt hge)] at h
  simp [default] at h

theorem creator_some_mem_creatorsList {st : GraphState} {i e : Nat}
    (h : (nodeAt st i).creator = some e) : e ∈ creatorsList st := by
  have hlt := creator_some_lt h
  rw [nodeAt_eq_getElem st i hlt] at h
  exact List.mem_filterMap.2 ⟨st.nodes[i], List.getElem_mem hlt, h⟩

/-! ### The master fold lemma over `propagateStep` -/

theorem foldl_propagateStep_facts (l : List (Nat × Arr)) :
    ∀ (st : GraphState) (wl seen : List Nat),
      stripGrads (l.foldl propagateStep (st, wl, seen)).1 = stripGrads st ∧
      (∃ Δ, (l.foldl propagateStep (st, wl, seen)).2.2 = seen ++ Δ ∧ Δ.Nodup ∧
        ∀ d ∈ Δ, d ∉ seen ∧ d ∈ creatorsList st) ∧
      (l.foldl propagateStep (st, wl, seen)).2.1.length + seen.length =
        wl.length + (l.foldl propagateStep (st, wl, seen)).2.2.length ∧
      (∀ w ∈ (l.foldl propagateStep (st, wl, seen)).2.1,
        w ∈ wl ∨ (w ∉ seen ∧ w ∈ (l.foldl propagateStep (st, wl, seen)).2.2)) := by
  induction l with
  | nil =>
    intro st wl seen
    exact ⟨rfl, ⟨[], by simp⟩, by simp, fun w hw => Or.inl hw⟩
  | cons p l ih =>
    intro st wl seen
    rw [List.foldl_cons]
    have hstep : ∃ wl1 seen1,
        propagateStep (st, wl, seen) p = (stepState st p, wl1, seen1) ∧
        ((wl1 = wl ∧ seen1 = seen) ∨
          (∃ ic, (nodeAt st p.1).creator = some ic ∧ ic ∉ seen ∧
            wl1 = sortByGen (stepState st p) (wl ++ [ic]) ∧ seen1 = seen ++ [ic])) := by
      cases hc : (nodeAt st p.1).creator with
      | none => exact ⟨wl, seen, propagateStep_none hc, Or.inl ⟨rfl, rfl⟩⟩
      | some ic =>
        cases hs : seen.contains ic with
        | true => exact ⟨wl, seen, propagateStep_seen hc hs, Or.inl ⟨rfl, rfl⟩⟩
        | false =>
          refine ⟨_, _, propagateStep_push hc hs, Or.inr ⟨ic, rfl, ?_, rfl, rfl⟩⟩
          intro hmem
          rw [← List.elem_iff] at hmem
          rw [show (seen.contains ic) = seen.elem ic from rfl] at hs
          rw [hmem] at hs
          cases hs
    obtain ⟨wl1, seen1, hps, hcase⟩ := hstep
    rw [hps]
    obtain ⟨ihstrip, ⟨Δ, hΔeq, hΔnd, hΔmem⟩, ihlen, ihmem⟩ := ih (stepState st p) wl1 seen1
    have hstrip1 : stripGrads (stepState st p) = stripGrads st := stripGrads_stepState st p
    have hcl : creatorsList (stepState st p) = creatorsList st := creatorsList_strip_eq hstrip1
    rcases hcase with ⟨hwl1, hseen1⟩ | ⟨ic, hc, hicseen, hwl1, hseen1⟩
    · subst hwl1
      subst hseen1
      refine ⟨ihstrip.trans hstrip1, ⟨Δ, hΔeq, hΔnd, ?_⟩, ihlen, ihmem⟩
      intro d hd
      exact ⟨(hΔmem d hd).1, hcl ▸ (hΔmem d hd).2⟩
    · subst hwl1
      subst hseen1
      refine ⟨ihstrip.trans hstrip1, ⟨ic :: Δ, ?_, ?_, ?_⟩, ?_, ?_⟩
      · rw [hΔeq, List.append_assoc]
        rfl
      · refine List.Pairwise.cons ?_ hΔnd
        intro d hd hde
        exact (hΔmem d hd).1 (by simp [← hde])
      · intro d hd
        rcases List.mem_cons.1 hd with hd1 | hd1
        · subst hd1
          exact ⟨hicseen, creator_some_mem_creatorsList hc⟩
        · refine ⟨fun hds => ((hΔmem d hd1).1) (by simp [hds]), hcl ▸ (hΔmem d hd1).2⟩
      · have hlw : (sortByGen (stepState st p) (wl ++ [ic])).length = wl.length + 1 := by
          rw [sortByGen_length]
          simp
        rw [hlw] at ihlen
        simp only [List.length_append, List.length_singleton] at ihlen ⊢
        omega
      · intro w hw
        rcases ihmem w hw with hw1 | hw1
        · rcases List.mem_append.1 ((sortByGen_mem _ _ w).1 hw1) with hw3 | hw3
          · exact Or.inl hw3
          · simp only [List.mem_singleton] at hw3
            subst hw3
            refine Or.inr ⟨hicseen, ?_⟩
            rw [hΔeq]
            simp
        · refine Or.inr ⟨fun hws => hw1.1 (by simp [hws]), hw1.2⟩

/-- Case analysis of a single `propagateStep`. -/
theorem propagateStep_cases (st : GraphState) (wl seen : List Nat) (p : Nat × Arr) :
    ∃ wl1 seen1,
      propagateStep (st, wl, seen) p = (stepState st p, wl1, seen1) ∧
      ((wl1 = wl ∧ seen1 = seen) ∨
        (∃ ic, (nodeAt st p.1).creator = some ic ∧ ic ∉ seen ∧
          wl1 = sortByGen (stepState st p) (wl ++ [ic]) ∧ seen1 = seen ++ [ic])) := by
  cases hc : (nodeAt st p.1).creator with
  | none => exact ⟨wl, seen, propagateStep_none hc, Or.inl ⟨rfl, rfl⟩⟩
  | some ic =>
    cases hs : seen.contains ic with
    | true => exact ⟨wl, seen, propagateStep_seen hc hs, Or.inl ⟨rfl, rfl⟩⟩
    | false =>
      refine ⟨_, _, propagateStep_push hc hs, Or.inr ⟨ic, rfl, ?_, rfl, rfl⟩⟩
      intro hmem
      rw [← List.elem_iff] at hmem
      rw [show (seen.contains ic) = seen.elem ic from rfl, hmem] at hs
      cases hs

theorem foldl_propagateStep_nodup (l : List (Nat × Arr)) :
    ∀ (st : GraphState) (wl seen : List Nat), wl.Nodup → seen.Nodup → wl ⊆ seen →
      (l.foldl propagateStep (st, wl, seen)).2.1.Nodup ∧
      (l.foldl propagateStep (st, wl, seen)).2.2.Nodup ∧
      (l.foldl propagateStep (st, wl, seen)).2.1 ⊆
        (l.foldl propagateStep (st, wl, seen)).2.2 := by
  induction l with
  | nil =>
    intro st wl seen h1 h2 h3
    exact ⟨h1, h2, h3⟩
  | cons p l ih =>
    intro st wl seen h1 h2 h3
    rw [List.foldl_cons]
    obtain ⟨wl1, seen1, hps, hcase⟩ := propagateStep_cases st wl seen p
    rw [hps]
    rcases hcase with ⟨rfl, rfl⟩ | ⟨ic, hc, hicseen, rfl, rfl⟩
    · exact ih _ _ _ h1 h2 h3
    · have hicwl : ic ∉ wl := fun hmem => hicseen (h3 hmem)
      refine ih _ _ _ ?_ ?_ ?_
      · apply sortByGen_nodup
        rw [List.nodup_append]
        exact ⟨h1, List.nodup_singleton ic, by
          intro a ha hb
          simp only [List.mem_singleton] at hb
          subst hb
          exact hicwl ha⟩
      · rw [List.nodup_append]
        exact ⟨h2, List.nodup_singleton ic, by
          intro a ha hb
          simp only [List.mem_singleton] at hb
          subst hb
          exact hicseen ha⟩
      · intro w hw
        rcases List.mem_append.1 ((sortByGen_mem _ _ w).1 hw) with hw1 | hw1
        · exact List.mem_append.2 (Or.inl (h3 hw1))
        · exact List.mem_append.2 (Or.inr hw1)

theorem foldl_propagateStep_sorted (l : List (Nat × Arr)) :
    ∀ (st : GraphState) (wl seen : List Nat), SortedGen st wl →
      SortedGen st (l.foldl propagateStep (st, wl, seen)).2.1 := by
  induction l with
  | nil =>
    intro st wl seen hs
    exact hs
  | cons p l ih =>
    intro st wl seen hs
    rw [List.foldl_cons]
    obtain ⟨wl1, seen1, hps, hcase⟩ := propagateStep_cases st wl seen p
    rw [hps]
    have hstrip1 : stripGrads (stepState st p) = stripGrads st := stripGrads_stepState st p
    have key : SortedGen (stepState st p) wl1 := by
      rcases hcase with ⟨rfl, -⟩ | ⟨ic, -, -, rfl, -⟩
      · exact (SortedGen_strip_eq hstrip1 _).2 hs
      · exact sortByGen_sorted _ _
    have := ih (stepState st p) wl1 seen1 key
    -- the foldl lands in states strip-equal to `stepState st p`; but SortedGen only
    -- mentions the worklist and a fixed state, so transport back to `st`
    exact (SortedGen_strip_eq hstrip1 _).1 this

theorem foldl_propagateStep_genbound (st0 : GraphState) (G : Nat)
    (hwf : wfb st0 = true) (l : List (Nat × Arr)) :
    ∀ (st : GraphState) (wl seen : List Nat), stripGrads st = stripGrads st0 →
      (∀ q ∈ l, (q : Nat × Arr).1 < st0.nodes.length ∧
        (nodeAt st0 q.1).generation ≤ G) →
      ∀ w ∈ (l.foldl propagateStep (st, wl, seen)).2.1,
        w ∈ wl ∨ (genOf st0 w < G ∧ w < st0.edges.length) := by
  induction l with
  | nil =>
    intro st wl seen hstrip hq w hw
    exact Or.inl hw
  | cons p l ih =>
    intro st wl seen hstrip hq w hw
    rw [List.foldl_cons] at hw
    obtain ⟨wl1, seen1, hps, hcase⟩ := propagateStep_cases st wl seen p
    rw [hps] at hw
    have hstrip1 : stripGrads (stepState st p) = stripGrads st0 :=
      (stripGrads_stepState st p).trans hstrip
    have hql : ∀ q ∈ l, (q : Nat × Arr).1 < st0.nodes.length ∧
        (nodeAt st0 q.1).generation ≤ G :=
      fun q hql1 => hq q (List.mem_cons_of_mem p hql1)
    have ihw := ih (stepState st p) wl1 seen1 hstrip1 hql w hw
    rcases hcase with ⟨rfl, -⟩ | ⟨ic, hc, -, rfl, -⟩
    · exact ihw
    · rcases ihw with hw1 | hw1
      · rcases List.mem_append.1 ((sortByGen_mem _ _ w).1 hw1) with hw2 | hw2
        · exact Or.inl hw2
        · simp only [List.mem_singleton] at hw2
          subst hw2
          -- the pushed creator: bound it through well-formedness of st0
          have hc0 : (nodeAt st0 p.1).creator = some w := by
            rw [← ((strip_eq_facts hstrip).2.2.2 p.1).1]
            exact hc
          have hp := hq p (List.mem_cons_self p l)
          have hwfp := (wfb_iff st0).1 hwf
          have hnode := hwfp.1 p.1 hp.1 w hc0
          refine Or.inr ⟨?_, hnode.1⟩
          have := hnode.2
          omega
      · exact Or.inr hw1

/-! ### `processEdge` wrappers of the fold lemmas -/

theorem processEdge_some {st : GraphState} {c : Creator} {wl seen : List Nat}
    {r : GraphState × List Nat × List Nat}
    (h : processEdge st c wl seen = some r) :
    ∃ gys, gysOf st c.outputs = some gys ∧
      r = (c.inputs.zip (c.function.backward
        (c.inputs.map fun i => (nodeAt st i).data) gys)).foldl
        propagateStep (st, wl, seen) := by
  unfold processEdge at h
  cases hg : gysOf st c.outputs with
  | none =>
    rw [hg] at h
    cases h
  | some gys =>
    rw [hg] at h
    simp only [Option.some_inj] at h
    exact ⟨gys, rfl, h.symm⟩

theorem processEdge_facts {st : GraphState} {c : Creator} {wl seen : List Nat}
    {r : GraphState × List Nat × List Nat}
    (h : processEdge st c wl seen = some r) :
    stripGrads r.1 = stripGrads st ∧
    (∃ Δ, r.2.2 = seen ++ Δ ∧ Δ.Nodup ∧ ∀ d ∈ Δ, d ∉ seen ∧ d ∈ creatorsList st) ∧
    r.2.1.length + seen.length = wl.length + r.2.2.length ∧
    (∀ w ∈ r.2.1, w ∈ wl ∨ (w ∉ seen ∧ w ∈ r.2.2)) := by
  obtain ⟨gys, -, rfl⟩ := processEdge_some h
  exact foldl_propagateStep_facts _ st wl seen

theorem processEdge_nodup {st : GraphState} {c : Creator} {wl seen : List Nat}
    {r : GraphState × List Nat × List Nat}
    (h : processEdge st c wl seen = some r) (h1 : wl.Nodup) (h2 : seen.Nodup)
    (h3 : wl ⊆ seen) :
    r.2.1.Nodup ∧ r.2.2.Nodup ∧ r.2.1 ⊆ r.2.2 := by
  obtain ⟨gys, -, rfl⟩ := processEdge_some h
  exact foldl_propagateStep_nodup _ st wl seen h1 h2 h3

theorem processEdge_sorted {st : GraphState} {c : Creator} {wl seen : List Nat}
    {r : GraphState × List Nat × List Nat}
    (h : processEdge st c wl seen = some r) (hs : SortedGen st wl) :
    SortedGen st r.2.1 := by
  obtain ⟨gys, -, rfl⟩ := processEdge_some h
  exact foldl_propagateStep_sorted _ st wl seen hs

theorem processEdge_genbound {st : GraphState} {c : Creator} {wl seen : List Nat}
    {r : GraphState × List Nat × List Nat} {G : Nat}
    (h : processEdge st c wl seen = some r) (hwf : wfb st = true)
    (hin : ∀ i ∈ c.inputs, i < st.nodes.length ∧ (nodeAt st i).generation ≤ G) :
    ∀ w ∈ r.2.1, w ∈ wl ∨ (genOf st w < G ∧ w < st.edges.length) := by
  obtain ⟨gys, -, rfl⟩ := processEdge_some h
  refine foldl_propagateStep_genbound st G hwf _ st wl seen rfl ?_
  intro q hq
  exact hin q.1 (List.of_mem_zip hq).1

/-! ### Loop lemmas -/

theorem nodup_subset_length {l S : List Nat} (h1 : l.Nodup) (h2 : l ⊆ S) :
    l.length ≤ S.dedup.length :=
  (List.subperm_of_subset h1 fun _ ha => List.mem_dedup.2 (h2 ha)).length_le

theorem getLast_not_mem_dropLast {l : List Nat} (hnd : l.Nodup) (h : l ≠ []) :
    l.getLast h ∉ l.dropLast := by
  intro hmem
  have hdec := List.dropLast_append_getLast h
  rw [← hdec, List.nodup_append] at hnd
  exact hnd.2.2 hmem (by simp)

theorem loop_strip :
    ∀ (fuel : Nat) (st : GraphState) (wl seen : List Nat) (st1 : GraphState),
      (backwardLoop fuel st wl seen).1 = .ok st1 → stripGrads st1 = stripGrads st := by
  intro fuel
  induction fuel with
  | zero =>
    intro st wl seen st1 h
    cases wl with
    | nil =>
      simp only [backwardLoop, BackResult.ok.injEq] at h
      rw [h]
    | cons w ws =>
      simp only [backwardLoop] at h
      cases h
  | succ fuel ih =>
    intro st wl seen st1 h
    cases wl with
    | nil =>
      simp only [backwardLoop, BackResult.ok.injEq] at h
      rw [h]
    | cons w ws =>
      simp only [backwardLoop] at h
      cases hpe : processEdge st (st.edges.getD (popLast w ws).1 default)
          (popLast w ws).2 seen with
      | none =>
        rw [hpe] at h
        cases h
      | some r =>
        rw [hpe] at h
        simp only at h
        exact (ih r.1 r.2.1 r.2.2 st1 h).trans (processEdge_facts hpe).1

theorem loop_not_fuelOut :
    ∀ (fuel : Nat) (S : List Nat) (st : GraphState) (wl seen : List Nat),
      seen.Nodup → seen ⊆ S → (∀ i ∈ creatorsList st, i ∈ S) →
      wl.length + S.dedup.length ≤ fuel + seen.length →
      (backwardLoop fuel st wl seen).1 ≠ .fuelOut := by
  intro fuel
  induction fuel with
  | zero =>
    intro S st wl seen hnd hsub hcl hlen
    cases wl with
    | nil => simp [backwardLoop]
    | cons w ws =>
      have := nodup_subset_length hnd hsub
      simp only [List.length_cons] at hlen
      omega
  | succ fuel ih =>
    intro S st wl seen hnd hsub hcl hlen
    cases wl with
    | nil => simp [backwardLoop]
    | cons w ws =>
      simp only [backwardLoop]
      cases hpe : processEdge st (st.edges.getD (popLast w ws).1 default)
          (popLast w ws).2 seen with
      | none => simp
      | some r =>
        simp only
        obtain ⟨hstrip, ⟨Δ, hΔeq, hΔnd, hΔmem⟩, hlen2, -⟩ := processEdge_facts hpe
        have hrest : (popLast w ws).2.length = ws.length := by
          rw [popLast_spec]
          simp
        refine ih S r.1 r.2.1 r.2.2 ?_ ?_ ?_ ?_
        · rw [hΔeq]
          refine List.Nodup.append hnd hΔnd ?_
          intro a ha hb
          exact (hΔmem a hb).1 ha
        · rw [hΔeq]
          intro a ha
          rcases List.mem_append.1 ha with ha1 | ha1
          · exact hsub ha1
          · exact hcl a (hΔmem a ha1).2
        · intro i hi
          rw [creatorsList_strip_eq hstrip] at hi
          exact hcl i hi
        · rw [hrest] at hlen2
          simp only [List.length_cons] at hlen
          omega

theorem loop_nodup :
    ∀ (fuel : Nat) (st : GraphState) (wl seen : List Nat),
      wl.Nodup → seen.Nodup → wl ⊆ seen →
      (backwardLoop fuel st wl seen).2.Nodup ∧
      ∀ t ∈ (backwardLoop fuel st wl seen).2, t ∈ wl ∨ t ∉ seen := by
  intro fuel
  induction fuel with
  | zero =>
    intro st wl seen h1 h2 h3
    cases wl with
    | nil => simp [backwardLoop]
    | cons w ws => simp [backwardLoop]
  | succ fuel ih =>
    intro st wl seen h1 h2 h3
    cases wl with
    | nil => simp [backwardLoop]
    | cons w ws =>
      simp only [backwardLoop]
      have hpop := popLast_spec w ws
      have hcne : (w :: ws) ≠ [] := by simp
      have hcmem : (popLast w ws).1 ∈ w :: ws := by
        rw [hpop]
        exact List.getLast_mem hcne
      have hrestsub : (popLast w ws).2 ⊆ (w :: ws) := by
        rw [hpop]
        exact (List.dropLast_sublist _).subset
      have hrestnd : (popLast w ws).2.Nodup := by
        rw [hpop]
        exact (List.dropLast_sublist _).nodup h1
      have hcnotrest : (popLast w ws).1 ∉ (popLast w ws).2 := by
        rw [hpop]
        exact getLast_not_mem_dropLast h1 hcne
      cases hpe : processEdge st (st.edges.getD (popLast w ws).1 default)
          (popLast w ws).2 seen with
      | none =>
        simp only
        constructor
        · exact List.nodup_singleton _
        · intro t ht
          simp only [List.mem_singleton] at ht
          subst ht
          exact Or.inl hcmem
      | some r =>
        simp only
        obtain ⟨hstrip, ⟨Δ, hΔeq, hΔnd, hΔmem⟩, hlen2, hmem2⟩ := processEdge_facts hpe
        obtain ⟨hrwl, hrseen, hrsub⟩ := processEdge_nodup hpe hrestnd h2
          (fun a ha => h3 (hrestsub ha))
        obtain ⟨ihnd, ihmem⟩ := ih r.1 r.2.1 r.2.2 hrwl hrseen hrsub
        have hcnotin : (popLast w ws).1 ∉ (backwardLoop fuel r.1 r.2.1 r.2.2).2 := by
          intro hin
          rcases ihmem _ hin with hin1 | hin1
          · rcases hmem2 _ hin1 with hin2 | hin2
            · exact hcnotrest hin2
            · exact hin2.1 (h3 hcmem)
          · refine hin1 ?_
            rw [hΔeq]
            exact List.mem_append.2 (Or.inl (h3 hcmem))
        constructor
        · exact List.Pairwise.cons (fun t ht hct => hcnotin (hct ▸ ht)) ihnd
        · intro t ht
          rcases List.mem_cons.1 ht with ht1 | ht1
          · subst ht1
            exact Or.inl hcmem
          · rcases ihmem t ht1 with ht2 | ht2
            · rcases hmem2 t ht2 with ht3 | ht3
              · exact Or.inl (hrestsub ht3)
              · exact Or.inr ht3.1
            · refine Or.inr fun hts => ht2 ?_
              rw [hΔeq]
              exact List.mem_append.2 (Or.inl hts)

theorem loop_chain :
    ∀ (fuel : Nat) (st : GraphState) (wl seen : List Nat),
      wfb st = true → SortedGen st wl → (∀ w ∈ wl, w < st.edges.length) →
      List.Chain' (fun a b => genOf st b ≤ genOf st a)
        (backwardLoop fuel st wl seen).2 ∧
      ∀ t ∈ (backwardLoop fuel st wl seen).2.head?, t ∈ wl := by
  intro fuel
  induction fuel with
  | zero =>
    intro st wl seen hwf hsorted hvalid
    cases wl with
    | nil => simp [backwardLoop]
    | cons w ws => simp [backwardLoop]
  | succ fuel ih =>
    intro st wl seen hwf hsorted hvalid
    cases wl with
    | nil => simp [backwardLoop]
    | cons w ws =>
      simp only [backwardLoop]
      have hpop := popLast_spec w ws
      have hcne : (w :: ws) ≠ [] := by simp
      have hcmem : (popLast w ws).1 ∈ w :: ws := by
        rw [hpop]
        exact List.getLast_mem hcne
      have hGmax : ∀ x ∈ w :: ws, genOf st x ≤ genOf st (popLast w ws).1 := by
        intro x hx
        rw [hpop]
        exact sorted_getLast_max st hsorted hcne x hx
      have hrestsub : (popLast w ws).2 ⊆ (w :: ws) := by
        rw [hpop]
        exact (List.dropLast_sublist _).subset
      have hrestsorted : SortedGen st (popLast w ws).2 := by
        rw [hpop]
        exact List.Pairwise.sublist (List.dropLast_sublist _) hsorted
      cases hpe : processEdge st (st.edges.getD (popLast w ws).1 default)
          (popLast w ws).2 seen with
      | none =>
        simp only
        refine ⟨List.chain'_singleton _, ?_⟩
        intro t ht
        simp only [List.head?_cons, Option.mem_def, Option.some_inj] at ht
        subst ht
        exact hcmem
      | some r =>
        simp only
        have hcid_lt : (popLast w ws).1 < st.edges.length := hvalid _ hcmem
        have hwfp := (wfb_iff st).1 hwf
        have hin : ∀ i ∈ (st.edges.getD (popLast w ws).1 default).inputs,
            i < st.nodes.length ∧
            (nodeAt st i).generation ≤ genOf st (popLast w ws).1 :=
          hwfp.2 (popLast w ws).1 hcid_lt
        have hgb := processEdge_genbound hpe hwf hin
        have hwlle : ∀ w1 ∈ r.2.1,
            genOf st w1 ≤ genOf st (popLast w ws).1 ∧ w1 < st.edges.length := by
          intro w1 hw1
          rcases hgb w1 hw1 with hw2 | hw2
          · exact ⟨hGmax w1 (hrestsub hw2), hvalid w1 (hrestsub hw2)⟩
          · exact ⟨le_of_lt hw2.1, hw2.2⟩
        have hstrip : stripGrads r.1 = stripGrads st := (processEdge_facts hpe).1
        have hg : genOf r.1 = genOf st := genOf_strip_eq hstrip
        have hedges : r.1.edges = st.edges := (strip_eq_facts hstrip).1
        have hsort2 : SortedGen st r.2.1 := processEdge_sorted hpe hrestsorted
        obtain ⟨ihchain, ihhead⟩ := ih r.1 r.2.1 r.2.2
          (by rw [wfb_strip_eq hstrip]; exact hwf)
          ((SortedGen_strip_eq hstrip _).2 hsort2)
          (by
            intro w1 hw1
            rw [hedges]
            exact (hwlle w1 hw1).2)
        have ihchain2 : List.Chain' (fun a b => genOf st b ≤ genOf st a)
            (backwardLoop fuel r.1 r.2.1 r.2.2).2 := by
          refine List.Chain'.imp ?_ ihchain
          intro a b hab
          rw [← hg]
          exact hab
        refine ⟨List.chain'_cons'.2 ⟨?_, ihchain2⟩, ?_⟩
        · intro y hy
          have hy2 := ihhead y hy
          exact (hwlle y hy2).1
        · intro t ht
          simp only [List.head?_cons, Option.mem_def, Option.some_inj] at ht
          subst ht
          exact hcmem

/-! ### Backward-level wrappers -/

theorem backward_strip {st : GraphState} {x : Nat} {st1 : GraphState}
    (h : VariableInternal.backward st x = .ok st1) :
    stripGrads st1 = stripGrads st := by
  unfold VariableInternal.backward VariableInternal.backwardRun at h
  cases hc : (nodeAt st x).creator with
  | none =>
    rw [hc] at h
    simp only [BackResult.ok.injEq] at h
    rw [h]
  | some c =>
    rw [hc] at h
    exact loop_strip _ st [c] [c] st1 h

theorem backward_not_fuelOut (st : GraphState) (x : Nat) :
    ¬ VariableInternal.backward st x = .fuelOut := by
  unfold VariableInternal.backward VariableInternal.backwardRun
  cases hc : (nodeAt st x).creator with
  | none => simp
  | some c =>
    refine loop_not_fuelOut (st.nodes.length + 1) (c :: creatorsList st) st [c] [c]
      (List.nodup_singleton c) (by simp) (fun i hi => List.mem_cons_of_mem c hi) ?_
    have h1 : (c :: creatorsList st).dedup.length ≤ (c :: creatorsList st).length :=
      (List.dedup_sublist _).length_le
    have h2 : (creatorsList st).length ≤ st.nodes.length :=
      List.length_filterMap_le _ _
    simp only [List.length_cons, List.length_singleton] at h1 ⊢
    omega

theorem backward_trace_nodup (st : GraphState) (x : Nat) :
    (backwardTrace st x).Nodup := by
  unfold backwardTrace VariableInternal.backwardRun
  cases hc : (nodeAt st x).creator with
  | none => simp
  | some c =>
    exact (loop_nodup _ st [c] [c] (List.nodup_singleton c)
      (List.nodup_singleton c) (fun a ha => ha)).1

theorem backward_trace_chain (st : GraphState) (x : Nat) (hwf : wfb st = true) :
    List.Chain' (fun a b => genOf st b ≤ genOf st a) (backwardTrace st x) := by
  unfold backwardTrace VariableInternal.backwardRun
  cases hc : (nodeAt st x).creator with
  | none => simp
  | some c =>
    refine (loop_chain _ st [c] [c] hwf ?_ ?_).1
    · exact List.pairwise_singleton _ c
    · intro w hw
      simp only [List.mem_singleton] at hw
      subst hw
      have hxlt := creator_some_lt hc
      exact (((wfb_iff st).1 hwf).1 x hxlt w hc).1

/-! ### `cleargradAll` is erasing every gradient -/

theorem GraphState.eq_of {a b : GraphState} (h1 : a.nodes = b.nodes)
    (h2 : a.edges = b.edges) (h3 : a.dead = b.dead) : a = b := by
  cases a
  cases b
  simp_all

theorem cleargrad_set (st : GraphState) (i : Nat) :
    Variable.cleargrad st i =
      { st with nodes := st.nodes.set i (stripNode (nodeAt st i)) } := rfl

theorem foldl_cleargrad_edges (ids : List Nat) :
    ∀ st : GraphState, (ids.foldl Variable.cleargrad st).edges = st.edges := by
  induction ids with
  | nil => intro st; rfl
  | cons i ids ih => intro st; exact ih (Variable.cleargrad st i)

theorem foldl_cleargrad_dead (ids : List Nat) :
    ∀ st : GraphState, (ids.foldl Variable.cleargrad st).dead = st.dead := by
  induction ids with
  | nil => intro st; rfl
  | cons i ids ih => intro st; exact ih (Variable.cleargrad st i)

theorem foldl_cleargrad_nodes (ids : List Nat) :
    ∀ (st : GraphState) (j : Nat),
      ((ids.foldl Variable.cleargrad st).nodes)[j]? =
        if j ∈ ids then (st.nodes[j]?).map stripNode else st.nodes[j]? := by
  induction ids with
  | nil =>
    intro st j
    simp
  | cons i ids ih =>
    intro st j
    rw [List.foldl_cons]
    rw [ih (Variable.cleargrad st i) j]
    have hset : (Variable.cleargrad st i).nodes[j]? =
        if i = j then (if i < st.nodes.length then
          some (stripNode (nodeAt st i)) else none) else st.nodes[j]? := by
      rw [cleargrad_set]
      exact List.getElem?_set
    by_cases hji : j ∈ ids
    · rw [if_pos hji, if_pos (List.mem_cons_of_mem i hji), hset]
      by_cases hij : i = j
      · subst hij
        by_cases hlt : i < st.nodes.length
        · rw [if_pos rfl, if_pos hlt, List.getElem?_eq_getElem hlt]
          rw [nodeAt_eq_getElem st i hlt]
          simp [stripNode_idem]
        · rw [if_pos rfl, if_neg hlt, List.getElem?_eq_none (le_of_not_lt hlt)]
      · rw [if_neg hij]
    · rw [if_neg hji, hset]
      by_cases hij : i = j
      · subst hij
        rw [if_pos (List.mem_cons_self i ids), if_pos rfl]
        by_cases hlt : i < st.nodes.length
        · rw [if_pos hlt, List.getElem?_eq_getElem hlt, nodeAt_eq_getElem st i hlt]
          rfl
        · rw [if_neg hlt, List.getElem?_eq_none (le_of_not_lt hlt)]
          rfl
      · rw [if_neg hij]
        have : j ∉ i :: ids := by
          intro hmem
          rcases List.mem_cons.1 hmem with h1 | h1
          · exact hij h1.symm
          · exact hji h1
        rw [if_neg this]

theorem cleargradAll_eq_stripGrads (st : GraphState) :
    cleargradAll st = stripGrads st := by
  refine GraphState.eq_of ?_ ?_ ?_
  · apply List.ext_getElem?
    intro j
    unfold cleargradAll
    rw [foldl_cleargrad_nodes]
    unfold stripGrads
    simp only [List.getElem?_map]
    by_cases hj : j < st.nodes.length
    · rw [if_pos (by simpa using hj)]
    · rw [if_neg (by simpa using hj)]
      rw [List.getElem?_eq_none (le_of_not_lt hj)]
      rfl
  · exact foldl_cleargrad_edges _ st
  · exact foldl_cleargrad_dead _ st

theorem stripGrads_of_grads_none {st : GraphState}
    (h : ∀ n ∈ st.nodes, n.grad = none) : stripGrads st = st := by
  refine GraphState.eq_of ?_ rfl rfl
  show st.nodes.map stripNode = st.nodes
  have : ∀ n ∈ st.nodes, stripNode n = n := by
    intro n hn
    have := h n hn
    cases n
    simp_all [stripNode]
  rw [List.map_congr_left this]
  simp

/-! ### Concrete example graphs -/

/-- A single leaf node with data `[3]` (shape `[1]`). -/
def exLeaf : GraphState := ⟨[VariableInternal.new ⟨[1], [3]⟩], [], []⟩

/-- `y = square(x)` on the leaf `[3]`: nodes `[x, y]`, one edge. -/
def exSquare : GraphState := (square exLeaf 0).1

/-- A single leaf node `a` with data `[2]`. -/
def exFanA : GraphState := ⟨[VariableInternal.new ⟨[1], [2]⟩], [], []⟩

/-- Fan-out graph `y = square(a) + square(a)`: node `a` (id 0) is an input of
two different edges (ids 0 and 1); `add` is edge 2, `y` is node 3. -/
def exFan : GraphState := (add (square (square exFanA 0).1 0).1 1 2).1

/-- The two-output `dupOp` applied to the leaf `a`: outputs are nodes 1, 2. -/
def exDup : GraphState := (Function.call exFanA dupOp [0]).1

/-- `square` applied to the first dup output (node 3, edge 2). -/
def exDeadBase : GraphState := (square exDup 1).1

/-- The same graph after the user handle to the second dup output (node 2) is
dropped: only the edges' weak references to it remain, so its allocation is
reclaimed and `upgrade()` on it fails. -/
def exDead : GraphState := { exDeadBase with dead := [2] }

/-! ### Claim theorems -/

/-- C8: for every state and start node, `backward()` terminates — the worklist
loop empties (result `ok`, or the panic path on a dead output; never fuel
exhaustion of the embedding) — and each creator edge is processed at most once
(the trace of popped edges has no duplicates). -/
theorem c8_backward_terminates (st : GraphState) (x : Nat) :
    ((∃ st1, VariableInternal.backward st x = .ok st1) ∨
      VariableInternal.backward st x = .panicked) ∧
    (backwardTrace st x).Nodup := by
  refine ⟨?_, backward_trace_nodup st x⟩
  cases h : VariableInternal.backward st x with
  | ok st1 => exact Or.inl ⟨st1, rfl⟩
  | panicked => exact Or.inr rfl
  | fuelOut => exact absurd h (backward_not_fuelOut st x)

/-- C4: in every backward traversal over a well-formed graph, an edge already
in the seen set is never re-enqueued (the processing trace has no duplicates),
edges are processed in non-increasing generation order, and the pop
(`Vec::pop` after the ascending sort) always removes an edge of maximal
generation among the current worklist. -/
theorem c4_pop_max_once (st : GraphState) (x : Nat) (hwf : wfb st = true) :
    (backwardTrace st x).Nodup ∧
    List.Chain' (fun a b => genOf st b ≤ genOf st a) (backwardTrace st x) ∧
    ∀ (w : Nat) (ws : List Nat), SortedGen st (w :: ws) →
      ∀ e ∈ w :: ws, genOf st e ≤ genOf st (popLast w ws).1 := by
  refine ⟨backward_trace_nodup st x, backward_trace_chain st x hwf, ?_⟩
  intro w ws hs e he
  rw [popLast_spec w ws]
  exact sorted_getLast_max st hs (by simp) e he

/-- Witness for C4 at the fan-out graph. -/
theorem c4_pop_max_once_witness :
    wfb exFan = true ∧
    ((backwardTrace exFan 3).Nodup ∧
      List.Chain' (fun a b => genOf exFan b ≤ genOf exFan a)
        (backwardTrace exFan 3) ∧
      ∀ (w : Nat) (ws : List Nat), SortedGen exFan (w :: ws) →
        ∀ e ∈ w :: ws, genOf exFan e ≤ genOf exFan (popLast w ws).1) :=
  ⟨by decide, c4_pop_max_once exFan 3 (by decide)⟩

/-- C7: on a graph whose gradients are all absent, running `backward`, then
`cleargrad` on every node, then `backward` again reproduces exactly the same
final state — in particular the same gradient values on every node; there is
no residual state. -/
theorem c7_reseed_idempotent (st : GraphState) (x : Nat) (st1 : GraphState)
    (hgrads : ∀ n ∈ st.nodes, n.grad = none)
    (h1 : VariableInternal.backward st x = .ok st1) :
    cleargradAll st1 = st ∧
    VariableInternal.backward (cleargradAll st1) x = .ok st1 := by
  have hstrip : stripGrads st1 = stripGrads st := backward_strip h1
  have hca : cleargradAll st1 = st := by
    rw [cleargradAll_eq_stripGrads, hstrip, stripGrads_of_grads_none hgrads]
  refine ⟨hca, ?_⟩
  rw [hca]
  exact h1

/-- Witness for C7 at the square chain. -/
theorem c7_reseed_idempotent_witness :
    cleargradAll (okStateD exSquare 1) = exSquare ∧
    VariableInternal.backward (cleargradAll (okStateD exSquare 1)) 1 =
      .ok (okStateD exSquare 1) :=
  c7_reseed_idempotent exSquare 1 (okStateD exSquare 1) (by decide) rfl

/-! ### `Function::call` characterization -/

/-- The `generation` local of `Function::call`:
`inputs.iter().map(|input| input.generation()).max().unwrap()` (for the
nonempty input lists the source permits; `foldl max 0` agrees with the
maximum there). -/
def callGen (st : GraphState) (inputs : List Nat) : Nat :=
  (inputs.map fun i => (nodeAt st i).generation).foldl max 0

/-- The `ys` local of `Function::call`: the forward results. -/
def callYs (st : GraphState) (f : Op) (inputs : List Nat) : List Arr :=
  f.forward (inputs.map fun i => (nodeAt st i).data)

/-- The ids of the output nodes allocated by `Function::call`. -/
def callOutIds (st : GraphState) (f : Op) (inputs : List Nat) : List Nat :=
  (List.range (callYs st f inputs).length).map fun j => st.nodes.length + j

theorem call_nodes_eq (st : GraphState) (f : Op) (inputs : List Nat) :
    (Function.call st f inputs).1.nodes = st.nodes ++
      (List.range (callYs st f inputs).length).map (fun j =>
        VariableInternal.mk ((callYs st f inputs).getD j default) none
          (callGen st inputs + 1) (some (st.edges.length + j))) := rfl

theorem call_edges_eq (st : GraphState) (f : Op) (inputs : List Nat) :
    (Function.call st f inputs).1.edges = st.edges ++
      (List.range (callYs st f inputs).length).map (fun _ =>
        Creator.mk inputs (callOutIds st f inputs) (callGen st inputs) f) := rfl

theorem call_dead_eq (st : GraphState) (f : Op) (inputs : List Nat) :
    (Function.call st f inputs).1.dead = st.dead := rfl

theorem call_outIds_eq (st : GraphState) (f : Op) (inputs : List Nat) :
    (Function.call st f inputs).2 = callOutIds st f inputs := rfl

theorem getD_range_map {α : Type} (n : Nat) (f : Nat → α) (k : Nat) (d : α)
    (hk : k < n) : ((List.range n).map f).getD k d = f k := by
  rw [List.getD_eq_getElem?_getD, List.getElem?_map, List.getElem?_range hk]
  rfl

theorem getD_append_range_map {α : Type} (l : List α) (n : Nat) (f : Nat → α)
    (k : Nat) (d : α) (hk : k < n) :
    (l ++ (List.range n).map f).getD (l.length + k) d = f k := by
  rw [List.getD_append_right l _ d (l.length + k) (Nat.le_add_right _ _),
    Nat.add_sub_cancel_left]
  exact getD_range_map n f k d hk

/-! ### Claims about `Function::call` -/

theorem call_preserves_nodes (st : GraphState) (f : Op) (inputs : List Nat)
    (j : Nat) (hj : j < st.nodes.length) :
    nodeAt (Function.call st f inputs).1 j = nodeAt st j := by
  show (Function.call st f inputs).1.nodes.getD j default = st.nodes.getD j default
  rw [call_nodes_eq]
  exact List.getD_append _ _ _ j hj

/-- C10: applying an operation via `call` leaves every pre-existing node —
in particular every input node — completely unchanged (data, grad, generation
and creator fields identical); `call` only appends fresh output nodes. -/
theorem c10_call_frame (st : GraphState) (f : Op) (inputs : List Nat)
    (j : Nat) (hj : j < st.nodes.length) :
    nodeAt (Function.call st f inputs).1 j = nodeAt st j :=
  call_preserves_nodes st f inputs j hj

/-- Witness for C10: the input leaf of a `square` call is untouched. -/
theorem c10_call_frame_witness :
    (0:Nat) < 1 ∧ nodeAt (Function.call exFanA squareOp [0]).1 0 = nodeAt exFanA 0 :=
  ⟨by decide, c10_call_frame exFanA squareOp [0] 0 (by decide)⟩

/-- C3 (amended reading is not needed; this is the claim as stated):
`Variable::new` gives generation 0; every edge created by `call` records
generation `callGen` — the maximum of the input nodes' generations (shown by
the upper-bound and attainment conjuncts) — each output node's creator is the
corresponding fresh edge and its generation is that edge's generation plus
one; and generations are assigned once: neither a later `call` nor `backward`
ever changes the generation of an existing node. -/
theorem c3_generation_bookkeeping :
    (∀ d : Arr, (VariableInternal.new d).generation = 0) ∧
    (∀ (st : GraphState) (f : Op) (inputs : List Nat) (k : Nat),
      k < (callYs st f inputs).length →
      ((Function.call st f inputs).1.edges.getD (st.edges.length + k)
        default).generation = callGen st inputs ∧
      (nodeAt (Function.call st f inputs).1 (st.nodes.length + k)).creator =
        some (st.edges.length + k) ∧
      (nodeAt (Function.call st f inputs).1 (st.nodes.length + k)).generation =
        ((Function.call st f inputs).1.edges.getD (st.edges.length + k)
          default).generation + 1) ∧
    (∀ (st : GraphState) (inputs : List Nat), inputs ≠ [] →
      (∀ i ∈ inputs, (nodeAt st i).generation ≤ callGen st inputs) ∧
      ∃ i ∈ inputs, (nodeAt st i).generation = callGen st inputs) ∧
    (∀ (st : GraphState) (f : Op) (inputs : List Nat) (j : Nat),
      j < st.nodes.length →
      (nodeAt (Function.call st f inputs).1 j).generation =
        (nodeAt st j).generation) ∧
    (∀ (st : GraphState) (x : Nat) (st1 : GraphState),
      VariableInternal.backward st x = .ok st1 →
      ∀ j, (nodeAt st1 j).generation = (nodeAt st j).generation) := by
  refine ⟨fun d => rfl, ?_, ?_, ?_, ?_⟩
  · intro st f inputs k hk
    have hedge : (Function.call st f inputs).1.edges.getD (st.edges.length + k)
        default = Creator.mk inputs (callOutIds st f inputs) (callGen st inputs) f := by
      rw [call_edges_eq]
      exact getD_append_range_map st.edges _ _ k default hk
    have hnode : nodeAt (Function.call st f inputs).1 (st.nodes.length + k) =
        VariableInternal.mk ((callYs st f inputs).getD k default) none
          (callGen st inputs + 1) (some (st.edges.length + k)) := by
      show (Function.call st f inputs).1.nodes.getD (st.nodes.length + k) default = _
      rw [call_nodes_eq]
      exact getD_append_range_map st.nodes _ _ k default hk
    rw [hedge, hnode]
    exact ⟨rfl, rfl, rfl⟩
  · intro st inputs hne
    constructor
    · intro i hi
      exact le_foldl_max _ 0 _ (List.mem_map.2 ⟨i, hi, rfl⟩)
    · rcases foldl_max_mem (inputs.map fun i => (nodeAt st i).generation) 0 with h0 | hmem
      · cases inputs with
        | nil => exact absurd rfl hne
        | cons a as =>
          refine ⟨a, List.mem_cons_self a as, ?_⟩
          have hle : (nodeAt st a).generation ≤ callGen st (a :: as) :=
            le_foldl_max _ 0 _ (List.mem_map.2 ⟨a, List.mem_cons_self a as, rfl⟩)
          have : callGen st (a :: as) = 0 := h0
          omega
      · obtain ⟨i, hi, hgi⟩ := List.mem_map.1 hmem
        exact ⟨i, hi, hgi⟩
  · intro st f inputs j hj
    rw [call_preserves_nodes st f inputs j hj]
  · intro st x st1 h j
    exact ((strip_eq_facts (backward_strip h)).2.2.2 j).2.1

/-- Witness for C3 at `square` on a leaf. -/
theorem c3_generation_bookkeeping_witness :
    (0:Nat) < (callYs exFanA squareOp [0]).length ∧
    ((Function.call exFanA squareOp [0]).1.edges.getD (exFanA.edges.length + 0)
      default).generation = callGen exFanA [0] ∧
    ([0] : List Nat) ≠ [] ∧
    (∀ i ∈ ([0] : List Nat), (nodeAt exFanA i).generation ≤ callGen exFanA [0]) := by
  refine ⟨by decide, ?_, by decide, ?_⟩
  · exact (c3_generation_bookkeeping.2.1 exFanA squareOp [0] 0 (by decide)).1
  · exact (c3_generation_bookkeeping.2.2.1 exFanA [0] (by decide)).1

/-- C5 counterexample: a two-output operation applied through `Function::call`
yields two distinct creator edges — the outputs' `creator` fields are not
pointer-equal (ids 0 and 1), and two edges were allocated, not one shared
edge. -/
theorem c5_counterexample :
    (nodeAt exDup 1).creator = some 0 ∧ (nodeAt exDup 2).creator = some 1 ∧
    exDup.edges.length = 2 ∧
    (nodeAt exDup 1).creator ≠ (nodeAt exDup 2).creator := by
  refine ⟨rfl, rfl, rfl, ?_⟩
  decide

/-- C5 amended: `call` constructs one fresh edge *per output* (M edges for M
outputs); all of them carry identical contents — strong references to the
inputs, non-owning references to all outputs, the computed generation, the
shared operation handle — and output `k`'s creator refers to the `k`-th of
these edges (so for a single-output operation exactly one edge exists, but for
multi-output operations the outputs' creators are distinct, not
pointer-equal). -/
theorem c5_edge_per_output (st : GraphState) (f : Op) (inputs : List Nat)
    (k : Nat) (hk : k < (callYs st f inputs).length) :
    (Function.call st f inputs).1.edges.length =
      st.edges.length + (callYs st f inputs).length ∧
    (Function.call st f inputs).1.edges.getD (st.edges.length + k) default =
      Creator.mk inputs (callOutIds st f inputs) (callGen st inputs) f ∧
    (nodeAt (Function.call st f inputs).1 (st.nodes.length + k)).creator =
      some (st.edges.length + k) := by
  refine ⟨?_, ?_, ?_⟩
  · rw [call_edges_eq]
    simp
  · rw [call_edges_eq]
    exact getD_append_range_map st.edges _ _ k default hk
  · have hnode : nodeAt (Function.call st f inputs).1 (st.nodes.length + k) =
        VariableInternal.mk ((callYs st f inputs).getD k default) none
          (callGen st inputs + 1) (some (st.edges.length + k)) := by
      show (Function.call st f inputs).1.nodes.getD (st.nodes.length + k) default = _
      rw [call_nodes_eq]
      exact getD_append_range_map st.nodes _ _ k default hk
    rw [hnode]

/-- Witness for the amended C5 at the two-output operation. -/
theorem c5_edge_per_output_witness :
    (1:Nat) < (callYs exFanA dupOp [0]).length ∧
    (Function.call exFanA dupOp [0]).1.edges.length =
      exFanA.edges.length + (callYs exFanA dupOp [0]).length ∧
    (nodeAt (Function.call exFanA dupOp [0]).1 (exFanA.nodes.length + 1)).creator =
      some (exFanA.edges.length + 1) :=
  ⟨by decide, (c5_edge_per_output exFanA dupOp [0] 1 (by decide)).1,
    (c5_edge_per_output exFanA dupOp [0] 1 (by decide)).2.2⟩

/-! ### Claims C1 and C6 -/

/-- C1 counterexample: `backward()` on a leaf node (no creator) with absent
gradient is a complete no-op — afterwards the gradient is still absent, not an
array of ones. -/
theorem c1_counterexample :
    VariableInternal.backward exLeaf 0 = .ok exLeaf ∧
    (nodeAt exLeaf 0).grad = none :=
  ⟨rfl, rfl⟩

/-- C1 amended: when `backward` needs the upstream gradient of a node whose
`grad` is absent, it substitutes an all-ones array of the same shape as that
node's data for the local computation, but never stores it: `backward()` on a
node with no creator returns the state unchanged (grad stays absent), and on
`y = square(x)` the ones array is consumed (so `x.grad` becomes `2·x·1`)
while `y.grad` itself remains absent after the call. -/
theorem c1_ones_substituted_not_stored :
    (∀ (st : GraphState) (x : Nat), (nodeAt st x).creator = none →
      VariableInternal.backward st x = .ok st) ∧
    (∀ (st : GraphState) (o : Nat) (os : List Nat) (gs : List Arr),
      st.dead.contains o = false → (nodeAt st o).grad = none →
      gysOf st os = some gs →
      gysOf st (o :: os) = some (Arr.onesLike (nodeAt st o).data :: gs)) ∧
    (∀ a : Arr, (Arr.onesLike a).shape = a.shape ∧
      ∀ v ∈ (Arr.onesLike a).vals, v = 1) ∧
    (VariableInternal.backward exSquare 1 = .ok (okStateD exSquare 1) ∧
      (nodeAt (okStateD exSquare 1) 1).grad = none ∧
      (nodeAt (okStateD exSquare 1) 0).grad = some ⟨[1], [6]⟩) := by
  refine ⟨?_, ?_, ?_, rfl, by decide, by decide⟩
  · intro st x h
    unfold VariableInternal.backward VariableInternal.backwardRun
    rw [h]
  · intro st o os gs hdead hgrad hrec
    simp only [gysOf, hdead, Bool.false_eq_true, if_false, hrec, hgrad]
  · intro a
    refine ⟨rfl, ?_⟩
    intro v hv
    rcases List.mem_map.1 hv with ⟨w, -, hw⟩
    exact hw.symm

/-- Witness for the amended C1. -/
theorem c1_ones_substituted_not_stored_witness :
    (nodeAt exLeaf 0).creator = none ∧
    VariableInternal.backward exLeaf 0 = .ok exLeaf ∧
    exSquare.dead.contains 1 = false ∧ (nodeAt exSquare 1).grad = none ∧
    gysOf exSquare [] = some [] ∧
    gysOf exSquare [1] = some [Arr.onesLike (nodeAt exSquare 1).data] :=
  ⟨by decide, c1_ones_substituted_not_stored.1 exLeaf 0 (by decide),
    by decide, by decide, rfl,
    c1_ones_substituted_not_stored.2.1 exSquare 1 [] [] (by decide) (by decide) rfl⟩

/-- The upgrade of a dead output aborts `gysOf` entirely. -/
theorem gysOf_none_of_dead {st : GraphState} {o : Nat} :
    ∀ {os : List Nat}, o ∈ os → st.dead.contains o = true → gysOf st os = none := by
  intro os
  induction os with
  | nil =>
    intro h
    cases h
  | cons o1 os ih =>
    intro hmem hdead
    rcases List.mem_cons.1 hmem with h1 | h1
    · subst h1
      simp only [gysOf, hdead, if_true]
    · cases hc : st.dead.contains o1 with
      | true => simp only [gysOf, hc, if_true]
      | false =>
        simp only [gysOf, hc, Bool.false_eq_true, if_false, ih h1 hdead]

/-- C6 amended: when an edge's non-owning reference to an output node can no
longer be upgraded (the node is dead), the backward traversal does *not*
treat it as a no-gradient branch: processing that edge fails (the
`upgrade().unwrap()` panic), and the loop then aborts the whole traversal
with a panic. -/
theorem c6_dead_output_panics (st : GraphState) (c : Creator)
    (wl seen : List Nat) (o : Nat) (ho : o ∈ c.outputs)
    (hd : st.dead.contains o = true) :
    processEdge st c wl seen = none ∧
    ∀ (fuel : Nat) (w : Nat) (ws : List Nat),
      processEdge st (st.edges.getD (popLast w ws).1 default)
        (popLast w ws).2 seen = none →
      backwardLoop (fuel + 1) st (w :: ws) seen =
        (.panicked, [(popLast w ws).1]) := by
  constructor
  · unfold processEdge
    rw [gysOf_none_of_dead ho hd]
  · intro fuel w ws hpe
    simp only [backwardLoop, hpe]

/-- C6 counterexample: with the second output of the two-output operation
destroyed, `backward` on the live branch panics instead of pruning. -/
theorem c6_counterexample :
    VariableInternal.backward exDead 3 = .panicked ∧
    exDead.dead.contains 2 = true ∧ 2 ∈ (exDead.edges.getD 0 default).outputs :=
  ⟨rfl, by decide, by decide⟩

/-- Witness for the amended C6 at the dead-output graph. -/
theorem c6_dead_output_panics_witness :
    2 ∈ (exDead.edges.getD 0 default).outputs ∧
    exDead.dead.contains 2 = true ∧
    processEdge exDead (exDead.edges.getD 0 default) [] [2] = none :=
  ⟨by decide, by decide,
    (c6_dead_output_panics exDead (exDead.edges.getD 0 default) [] [2] 2
      (by decide) (by decide)).1⟩

/-! ### Elementwise evaluation lemmas for the square gradient -/

theorem zipWith_mul_one (l1 l2 : List ℤ) (h : l1.length ≤ l2.length) :
    List.zipWith (fun x y => x * y) l1 (l2.map fun _ => (1:ℤ)) = l1 := by
  induction l1 generalizing l2 with
  | nil => rfl
  | cons a as ih =>
    cases l2 with
    | nil => simp at h
    | cons b bs =>
      simp only [List.map_cons, List.zipWith_cons_cons, mul_one]
      rw [ih bs (by simpa using h)]

/-- `Square::backward` applied to an all-ones upstream gradient yields `2·x`
elementwise: `(x.mapv(|x| x*2)) * ones.mapv(|gy| gy) = 2*x`. -/
theorem square_grad_eval (d X : Arr) (hlen : d.vals.length ≤ X.vals.length) :
    Arr.mul (Arr.mapv (fun x => x * 2) d) (Arr.mapv (fun gy => gy) (Arr.onesLike X)) =
      Arr.mapv (fun v => 2 * v) d := by
  unfold Arr.mul Arr.zipWith Arr.mapv Arr.onesLike
  simp only [List.map_map]
  have hc : ((fun gy => gy) ∘ fun (_ : ℤ) => (1:ℤ)) = fun (_ : ℤ) => (1:ℤ) := rfl
  rw [hc]
  have h2 : (d.vals.map fun x => x * 2).length ≤ X.vals.length := by
    simpa using hlen
  congr 1
  rw [zipWith_mul_one _ _ h2]
  exact List.map_congr_left fun a _ => mul_comm a 2

/-! ### Claim C9: square forward and backward values -/

/-- C9: for a leaf node with data `d`, `square(x).data = d²` elementwise, and
after `square(x).backward()`, `x.grad` is present and equals `2·d`
elementwise. -/
theorem c9_square_values (d : Arr) :
    (nodeAt (square (GraphState.mk [VariableInternal.new d] [] []) 0).1 1).data =
      Arr.mapv (fun v => v * v) d ∧
    ∃ st2,
      VariableInternal.backward
        (square (GraphState.mk [VariableInternal.new d] [] []) 0).1 1 = .ok st2 ∧
      (nodeAt st2 0).grad = some (Arr.mapv (fun v => 2 * v) d) := by
  have hrun : VariableInternal.backward
      (square (GraphState.mk [VariableInternal.new d] [] []) 0).1 1 =
      .ok (GraphState.mk
        [⟨d, some (Arr.mul (Arr.mapv (fun x => x * 2) d)
            (Arr.mapv (fun gy => gy)
              (Arr.onesLike (Arr.mapv (fun x => x * x) d)))), 0, none⟩,
         ⟨Arr.mapv (fun x => x * x) d, none, 1, some 0⟩]
        [⟨[0], [1], 0, squareOp⟩] []) := rfl
  refine ⟨rfl, ⟨_, hrun, ?_⟩⟩
  show some (Arr.mul (Arr.mapv (fun x => x * 2) d)
      (Arr.mapv (fun gy => gy) (Arr.onesLike (Arr.mapv (fun x => x * x) d)))) =
    some (Arr.mapv (fun v => 2 * v) d)
  rw [square_grad_eval d (Arr.mapv (fun x => x * x) d) (by simp [Arr.mapv])]

/-- `getD` of `set` at the written index. -/
theorem getD_set_self {α : Type} (l : List α) (i : Nat) (a d : α)
    (h : i < l.length) : (l.set i a).getD i d = a := by
  rw [List.getD_eq_getElem?_getD, List.getElem?_set, if_pos rfl, if_pos h]
  rfl

/-- Fan-out graph on a leaf with data `d`:
`p = square(a)` (node 1, edge 0), `q = square(a)` (node 2, edge 1),
`y = p + q` (node 3, edge 2). -/
def fanState (d : Arr) : GraphState :=
  (add (square (square (GraphState.mk [VariableInternal.new d] [] []) 0).1 0).1
    1 2).1

/-- C2: gradient contributions are accumulated, never overwritten — the only
gradient write site is `accumulate`, which adds onto a present gradient and
sets an absent one — and consequently on the fan-out graph
`y = square(a) + square(a)`, `backward()` on `y` leaves `a.grad` equal to the
elementwise sum of the two path-local contributions (each `2·d`). -/
theorem c2_accumulate_fanout :
    (∀ (g gx : Arr), accumulate (some g) gx = some (g + gx)) ∧
    (∀ gx : Arr, accumulate none gx = some gx) ∧
    (∀ (st : GraphState) (wl seen : List Nat) (p : Nat × Arr),
      p.1 < st.nodes.length →
      (nodeAt (propagateStep (st, wl, seen) p).1 p.1).grad =
        accumulate (nodeAt st p.1).grad p.2) ∧
    (∀ d : Arr, ∃ st2,
      VariableInternal.backward (fanState d) 3 = .ok st2 ∧
      (nodeAt st2 0).grad =
        some (Arr.mapv (fun v => 2 * v) d + Arr.mapv (fun v => 2 * v) d)) := by
  refine ⟨fun g gx => rfl, fun gx => rfl, ?_, ?_⟩
  · intro st wl seen p hp
    obtain ⟨wl1, seen1, hps, -⟩ := propagateStep_cases st wl seen p
    rw [hps]
    show ((stepState st p).nodes.getD p.1 default).grad = _
    unfold stepState
    simp only
    rw [getD_set_self _ _ _ _ hp]
  · intro d
    have h1 : (square (GraphState.mk [VariableInternal.new d] [] []) 0).1 =
        GraphState.mk
          [⟨d, none, 0, none⟩, ⟨Arr.mapv (fun x => x * x) d, none, 1, some 0⟩]
          [⟨[0], [1], 0, squareOp⟩] [] := rfl
    have h2 : (square (GraphState.mk
          [⟨d, none, 0, none⟩, ⟨Arr.mapv (fun x => x * x) d, none, 1, some 0⟩]
          [⟨[0], [1], 0, squareOp⟩] []) 0).1 =
        GraphState.mk
          [⟨d, none, 0, none⟩, ⟨Arr.mapv (fun x => x * x) d, none, 1, some 0⟩,
           ⟨Arr.mapv (fun x => x * x) d, none, 1, some 1⟩]
          [⟨[0], [1], 0, squareOp⟩, ⟨[0], [2], 0, squareOp⟩] [] := rfl
    have h3 : (add (GraphState.mk
          [⟨d, none, 0, none⟩, ⟨Arr.mapv (fun x => x * x) d, none, 1, some 0⟩,
           ⟨Arr.mapv (fun x => x * x) d, none, 1, some 1⟩]
          [⟨[0], [1], 0, squareOp⟩, ⟨[0], [2], 0, squareOp⟩] []) 1 2).1 =
        GraphState.mk
          [⟨d, none, 0, none⟩, ⟨Arr.mapv (fun x => x * x) d, none, 1, some 0⟩,
           ⟨Arr.mapv (fun x => x * x) d, none, 1, some 1⟩,
           ⟨Arr.add (Arr.mapv (fun x => x * x) d) (Arr.mapv (fun x => x * x) d),
              none, 2, some 2⟩]
          [⟨[0], [1], 0, squareOp⟩, ⟨[0], [2], 0, squareOp⟩,
           ⟨[1, 2], [3], 1, addOp⟩] [] := rfl
    have hfan : fanState d = GraphState.mk
          [⟨d, none, 0, none⟩, ⟨Arr.mapv (fun x => x * x) d, none, 1, some 0⟩,
           ⟨Arr.mapv (fun x => x * x) d, none, 1, some 1⟩,
           ⟨Arr.add (Arr.mapv (fun x => x * x) d) (Arr.mapv (fun x => x * x) d),
              none, 2, some 2⟩]
          [⟨[0], [1], 0, squareOp⟩, ⟨[0], [2], 0, squareOp⟩,
           ⟨[1, 2], [3], 1, addOp⟩] [] := by
      unfold fanState
      rw [h1, h2, h3]
    have hrun : VariableInternal.backward (fanState d) 3 =
        .ok (GraphState.mk
          [⟨d, some (Arr.mul (Arr.mapv (fun x => x * 2) d)
                (Arr.mapv (fun gy => gy)
                  (Arr.onesLike (Arr.add (Arr.mapv (fun x => x * x) d)
                    (Arr.mapv (fun x => x * x) d)))) +
              Arr.mul (Arr.mapv (fun x => x * 2) d)
                (Arr.mapv (fun gy => gy)
                  (Arr.onesLike (Arr.add (Arr.mapv (fun x => x * x) d)
                    (Arr.mapv (fun x => x * x) d))))), 0, none⟩,
           ⟨Arr.mapv (fun x => x * x) d,
              some (Arr.onesLike (Arr.add (Arr.mapv (fun x => x * x) d)
                (Arr.mapv (fun x => x * x) d))), 1, some 0⟩,
           ⟨Arr.mapv (fun x => x * x) d,
              some (Arr.onesLike (Arr.add (Arr.mapv (fun x => x * x) d)
                (Arr.mapv (fun x => x * x) d))), 1, some 1⟩,
           ⟨Arr.add (Arr.mapv (fun x => x * x) d) (Arr.mapv (fun x => x * x) d),
              none, 2, some 2⟩]
          [⟨[0], [1], 0, squareOp⟩, ⟨[0], [2], 0, squareOp⟩,
           ⟨[1, 2], [3], 1, addOp⟩] []) := by
      rw [hfan]
      rfl
    refine ⟨_, hrun, ?_⟩
    have hG : Arr.mul (Arr.mapv (fun x => x * 2) d)
        (Arr.mapv (fun gy => gy)
          (Arr.onesLike (Arr.add (Arr.mapv (fun x => x * x) d)
            (Arr.mapv (fun x => x * x) d)))) =
        Arr.mapv (fun v => 2 * v) d := by
      refine square_grad_eval d _ ?_
      simp [Arr.add, Arr.zipWith, Arr.mapv]
    show some (_ + _) = _
    rw [hG]

/-- Witness for C2: the write-site conjunct at a concrete node. -/
theorem c2_accumulate_fanout_witness :
    (0:Nat) < exFanA.nodes.length ∧
    (nodeAt (propagateStep (exFanA, [], []) (0, ⟨[1], [5]⟩)).1 0).grad =
      accumulate (nodeAt exFanA 0).grad ⟨[1], [5]⟩ :=
  ⟨by decide,
    c2_accumulate_fanout.2.2.1 exFanA [] [] (0, ⟨[1], [5]⟩) (by decide)⟩

end Dezero

